import Mathlib

/-
  Shallow embedding of `har_to_openapi.py`: the path normalizer
  (`standardize_path`), the schema inferrer (`generate_schema`,
  `extract_schema_from_json`), the endpoint describer
  (`generate_endpoint_description`) and the spec assembler
  (`convertPaths` / `convert_har_to_openapi`), together with theorems
  settling the specification claims about them.

  Modelling conventions:
  - Python strings are Lean `String`s; the split/join helpers and the
    anchored regular expressions of the source are implemented on
    `List Char`.
  - `json.loads` and `urlparse` are standard-library calls external to the
    source file; a body text is therefore modelled by its parse result
    (`Option Json`, `none` meaning the text is not parseable as JSON), and
    a URL by its parsed components (scheme, path, query).
  - Python dicts are association lists in insertion order; assignment to an
    existing key updates the value in place (`dictInsert`).
-/

/-- Positional list indexing, Python's `l[i]`, as an option. -/
def nth {α : Type _} : List α → Nat → Option α
  | [], _ => none
  | a :: _, 0 => some a
  | _ :: l, n + 1 => nth l n

/-- Python's `str.split(sep)` for a one-character separator: an empty
string yields `[[]]`, and separators at the ends yield empty pieces. -/
def splitOnChar (sep : Char) : List Char → List (List Char)
  | [] => [[]]
  | c :: rest =>
    if c = sep then [] :: splitOnChar sep rest
    else
      match splitOnChar sep rest with
      | [] => [[c]]
      | t :: ts => (c :: t) :: ts

/-- Python's `sep.join(pieces)` for a one-character separator. -/
def joinChar (sep : Char) : List (List Char) → List Char
  | [] => []
  | [s] => s
  | s :: rest => s ++ sep :: joinChar sep rest

/-- Insertion-ordered association-list update, Python's `d[k] = v`: an
existing key keeps its position and gets the new value, a new key is
appended at the end. -/
def dictInsert {κ ν : Type _} [DecidableEq κ] : List (κ × ν) → κ → ν → List (κ × ν)
  | [], k, v => [(k, v)]
  | (k', v') :: rest, k, v =>
    if k' = k then (k, v) :: rest else (k', v') :: dictInsert rest k v

/-- Association-list lookup, Python's `d[k]` / `d.get(k)`. -/
def dictLookup {κ ν : Type _} [DecidableEq κ] : List (κ × ν) → κ → Option ν
  | [], _ => none
  | (k', v') :: rest, k => if k' = k then some v' else dictLookup rest k

/-- Keys of an association list, in insertion order. -/
def dictKeys {κ ν : Type _} (m : List (κ × ν)) : List κ := m.map Prod.fst

/-- Number of entries of an association list holding the given key. -/
def countKey {κ ν : Type _} [DecidableEq κ] (m : List (κ × ν)) (k : κ) : Nat :=
  (m.filter (fun e => e.1 = k)).length

/-- Decimal digit character for a value below ten (`'*'` above). -/
def digitChar : Nat → Char
  | 0 => '0' | 1 => '1' | 2 => '2' | 3 => '3' | 4 => '4'
  | 5 => '5' | 6 => '6' | 7 => '7' | 8 => '8' | 9 => '9'
  | _ => '*'

/-- Fuel-driven decimal rendering of a natural number (most significant
digit first); with fuel above the number it is Python's `str(n)`. -/
def natDigitsAux : Nat → Nat → List Char
  | 0, _ => []
  | fuel + 1, n =>
    if n < 10 then [digitChar n]
    else natDigitsAux fuel (n / 10) ++ [digitChar (n % 10)]

/-- Decimal rendering of a natural number, Python's `str(n)`. -/
def natDigits (n : Nat) : List Char := natDigitsAux (n + 1) n

/-- Decoded JSON value, the result of a successful `json.loads`.  Python
keeps whole-number literals as `int` and fractional ones as `float`
(`Json.num` here); booleans are a constructor of their own even though
Python's `bool` is a subclass of `int`, because `generate_schema` tests
`isinstance(data, bool)` before `isinstance(data, int)` and so observes
the boolean identity first. -/
inductive Json where
  | null : Json
  | bool (b : Bool) : Json
  | int (n : Int) : Json
  | num (q : Rat) : Json
  | str (s : String) : Json
  | arr (elems : List Json) : Json
  | obj (pairs : List (String × Json)) : Json

/-- Python's `value is None` on a decoded JSON value. -/
def Json.isNull : Json → Bool
  | .null => true
  | _ => false

/-- Inferred schema node: the dictionaries built by `generate_schema`.
`empty` is the bare `{}` returned on a parse failure; `object` carries the
`properties` list and the `required` key (`none` models Python's
`required = None` for an all-null object); `array` carries the optional
`items` key; `simple t` is `{"type": t}`. -/
inductive Schema where
  | empty : Schema
  | object (properties : List (String × Schema)) (required : Option (List String)) : Schema
  | array (items : Option Schema) : Schema
  | simple (ty : String) : Schema

/-- Keys of an object whose example value is non-null: the `required`
list accumulated by the loop in `generate_schema`. -/
def requiredKeys : List (String × Json) → List String
  | [] => []
  | (k, v) :: rest => if v.isNull then requiredKeys rest else k :: requiredKeys rest

mutual

/-- Embedding of `generate_schema` (har_to_openapi.py lines 17-46):
structural schema inference from a decoded JSON value. -/
def generate_schema : Json → Schema
  | .obj pairs =>
    .object (genProps pairs)
      (if requiredKeys pairs = [] then none else some (requiredKeys pairs))
  | .arr elems => .array (genItems elems)
  | .bool _ => .simple "boolean"
  | .int _ => .simple "integer"
  | .num _ => .simple "number"
  | .str _ => .simple "string"
  | .null => .simple "null"

/-- Property schemas of an object, one recursive call per key. -/
def genProps : List (String × Json) → List (String × Schema)
  | [] => []
  | (k, v) :: rest => (k, generate_schema v) :: genProps rest

/-- Items schema of an array: the first element only, absent when empty. -/
def genItems : List Json → Option Schema
  | [] => none
  | v :: _ => some (generate_schema v)

end

/-- Embedding of `extract_schema_from_json` (lines 9-15): the argument is
the `json.loads` result of the input text, `none` when parsing fails, in
which case the bare `{}` schema is returned. -/
def extract_schema_from_json : Option Json → Schema
  | some data => generate_schema data
  | none => .empty

/-- Lowercase hexadecimal digit, the character class `[a-f0-9]`. -/
def isHexLowerChar (c : Char) : Bool := c.isDigit || ('a' ≤ c && c ≤ 'f')

/-- Character class `[a-zA-Z0-9_-]` of the token pattern. -/
def isTokenChar (c : Char) : Bool := c.isAlphanum || c = '_' || c = '-'

/-- Anchored pattern `^\d+$` (numeric IDs). -/
def isDigitSeg (s : List Char) : Bool := !s.isEmpty && s.all Char.isDigit

/-- Anchored pattern
`^[a-f0-9]{8}-[a-f0-9]{4}-[a-f0-9]{4}-[a-f0-9]{4}-[a-f0-9]{12}$`
(canonical UUIDs): hyphen-split group lengths 8-4-4-4-12 with every
character a lowercase hex digit or a hyphen. -/
def isUuidSeg (s : List Char) : Bool :=
  ((splitOnChar '-' s).map List.length == [8, 4, 4, 4, 12]) &&
    s.all (fun c => isHexLowerChar c || c = '-')

/-- Anchored pattern `^[a-f0-9]{32}$` (MD5-like hashes). -/
def isHashSeg (s : List Char) : Bool := s.length == 32 && s.all isHexLowerChar

/-- Anchored pattern `^[a-zA-Z0-9_-]{20,}$` (long tokens). -/
def isTokenSeg (s : List Char) : Bool := decide (20 ≤ s.length) && s.all isTokenChar

/-- First matching pattern of the ordered `patterns` list of
`standardize_path` (lines 135-140), with its parameter kind. -/
def matchKind (s : List Char) : Option (List Char) :=
  if isDigitSeg s then some "id".data
  else if isUuidSeg s then some "uuid".data
  else if isHashSeg s then some "hash".data
  else if isTokenSeg s then some "token".data
  else none

/-- Parameter name of a matched segment (line 151): the bare kind at split
index 0, and `kind_i` at any later index. -/
def paramName (kind : List Char) (i : Nat) : List Char :=
  if i = 0 then kind else kind ++ '_' :: natDigits i

/-- Loop body of `standardize_path` (lines 143-154): walk the split
segments with their indices, replace each pattern-matching segment by its
placeholder and record the literal-to-name assignment in the mapping
(a later occurrence of the same literal overwrites the earlier entry, as
Python's `param_mapping[segment] = param_name` does). -/
def stdLoop : List (List Char) → Nat → List (List Char × List Char) →
    List (List Char) × List (List Char × List Char)
  | [], _, m => ([], m)
  | s :: rest, i, m =>
    if s = [] then
      let r := stdLoop rest (i + 1) m
      (s :: r.1, r.2)
    else
      match matchKind s with
      | some kind =>
        let name := paramName kind i
        let r := stdLoop rest (i + 1) (dictInsert m s name)
        (('{' :: (name ++ ['}'])) :: r.1, r.2)
      | none =>
        let r := stdLoop rest (i + 1) m
        (s :: r.1, r.2)

/-- Character-level core of `standardize_path` (lines 120-156): split on
`'/'`, rewrite the segments, rejoin with `'/'`. -/
def stdPath (p : List Char) : List Char × List (List Char × List Char) :=
  let r := stdLoop (splitOnChar '/' p) 0 []
  (joinChar '/' r.1, r.2)

/-- Embedding of `standardize_path`: returns the path template and the
mapping from each replaced literal to its placeholder name. -/
def standardize_path (p : String) : String × List (String × String) :=
  let r := stdPath p.data
  (String.mk r.1, r.2.map (fun e => (String.mk e.1, String.mk e.2)))

/-- Python's `str.lower()`, character by character (ASCII case folding,
as in the method strings the source lowers). -/
def strLower (s : String) : String := String.mk (s.data.map Char.toLower)

/-- Python's `str.upper()`, character by character. -/
def strUpper (s : String) : String := String.mk (s.data.map Char.toUpper)

/-- Python's `str.startswith(pre)`. -/
def strStartsWith (s pre : String) : Bool := pre.data.isPrefixOf s.data

/-- Python's `', '.join(items)`. -/
def joinComma : List String → String
  | [] => ""
  | [s] => s
  | s :: rest => s ++ ", " ++ joinComma rest

/-- Verb chosen for the HTTP method (lines 65-71), Python's
`{...}.get(method.lower(), 'Process')`. -/
def methodVerb (method : String) : String :=
  let m := strLower method
  if m = "get" then "Retrieve"
  else if m = "post" then "Create"
  else if m = "put" then "Update"
  else if m = "patch" then "Partially update"
  else if m = "delete" then "Delete"
  else "Process"

/-- Resource name of a path (lines 57-58): the last non-empty `/`-split
segment, or `resource` when there is none. -/
def resourceName (path : String) : String :=
  match ((splitOnChar '/' path.data).filter (fun s => !s.isEmpty)).getLast? with
  | some r => String.mk r
  | none => "resource"

/-- Status annotation appended to the description (lines 113-116). -/
def statusSuffix (status : Int) : String :=
  if 200 ≤ status ∧ status < 300 then " (Success: " ++ toString status ++ ")"
  else if 400 ≤ status then " (Error: " ++ toString status ++ ")"
  else ""

/-- Parsed URL, the `scheme`/`path`/`query` components that
`urlparse(request.get('url', ''))` exposes to the source (the parse itself
is a standard-library call external to the file). -/
structure Url where
  scheme : String
  path : String
  query : String

/-- The `postData` object of a request.  `text` is `none` when the key is
absent; when present it holds the `json.loads` result of the text,
`none` meaning the text is not parseable as JSON. -/
structure PostData where
  text : Option (Option Json)

/-- Captured request: `method` is `none` when absent (default `GET`);
`postData` is `none` when the key is absent or its dict is falsy. -/
structure Request where
  method : Option String
  url : Url
  postData : Option PostData

/-- The `content` object of a response; `text` as in `PostData`. -/
structure Content where
  mimeType : Option String
  text : Option (Option Json)

/-- Captured response, with each field `none` when absent. -/
structure Response where
  status : Option Int
  statusText : Option String
  content : Option Content

/-- One traffic entry of the decoded HAR log. -/
structure Entry where
  request : Request
  response : Response

/-- Parse result of `request.get('postData', {}).get('text', '{}')`
(line 74): an absent field falls back to the literal `'{}'`, which parses
to the empty object. -/
def requestBodyParse (rq : Request) : Option Json :=
  match rq.postData with
  | none => some (.obj [])
  | some pd =>
    match pd.text with
    | none => some (.obj [])
    | some parse => parse

/-- Parse result of `pd.get('text', '{}')` for a present `postData`
(line 247). -/
def pdTextParse (pd : PostData) : Option Json :=
  match pd.text with
  | none => some (.obj [])
  | some parse => parse

/-- Parse result of `response.get('content', {}).get('text', '{}')`
(lines 89 and 234). -/
def respTextParse (rs : Response) : Option Json :=
  match rs.content with
  | none => some (.obj [])
  | some c =>
    match c.text with
    | none => some (.obj [])
    | some parse => parse

/-- Request-body clause of the description (lines 74-86): the key list of
a parsed object body, empty on a parse failure, a non-object body or an
empty object. -/
def fieldDescOf (rq : Request) : String :=
  match requestBodyParse rq with
  | some (.obj pairs) =>
    if pairs.isEmpty then "" else " with fields: " ++ joinComma (pairs.map Prod.fst)
  | _ => ""

/-- Response clause of the description (lines 88-103): field list for an
object body with keys, the list sentence for any array body, nothing
otherwise. -/
def respDescOf (rs : Response) (resource : String) : String :=
  match respTextParse rs with
  | some (.obj pairs) =>
    if pairs.isEmpty then ""
    else " Returns data with fields: " ++ joinComma (pairs.map Prod.fst)
  | some (.arr _) => " Returns a list of " ++ resource ++ "s"
  | _ => ""

/-- Embedding of `generate_endpoint_description` (lines 54-118).  The
source appends `field_desc` and `response_desc` only when non-empty, which
coincides with unconditional concatenation. -/
def generate_endpoint_description (path method : String) (rq : Request) (rs : Response) :
    String :=
  let resource := resourceName path
  methodVerb method ++ " " ++ resource ++ fieldDescOf rq ++ respDescOf rs resource ++
    statusSuffix (rs.status.getD 200)

/-- Split of a query field on its first `'='`, `none` when there is no
`'='` in the field. -/
def splitEq : List Char → Option (List Char × List Char)
  | [] => none
  | c :: rest =>
    if c = '=' then some ([], rest)
    else (splitEq rest).map (fun r => (c :: r.1, r.2))

/-- Model of `urllib.parse.parse_qs` with its defaults: split the query on
`'&'`, keep only fields of the form `name=value` with a non-empty value,
and group the values by name in first-occurrence order.  Percent-decoding
of the standard library's `unquote` is not modelled; names and values are
taken verbatim. -/
def parse_qs (q : String) : List (String × List String) :=
  let fields := (splitOnChar '&' q.data).filterMap (fun f =>
    match splitEq f with
    | some (n, v) => if v.isEmpty then none else some (n, v)
    | none => none)
  fields.foldl (fun m e =>
    let k := String.mk e.1
    let v := String.mk e.2
    match dictLookup m k with
    | some vs => dictInsert m k (vs ++ [v])
    | none => m ++ [(k, [v])]) []

/-- One element of an operation's `parameters` list (lines 257-263 and
270-276). -/
structure Param where
  name : String
  location : String
  required : Bool
  description : String
  schema : Schema

/-- One response entry of an operation (lines 230-237), with the
`content.application/json` wrapper collapsed to its schema. -/
structure RespEntry where
  description : String
  schema : Schema

/-- The `requestBody` object of an operation (lines 243-250), with the
`content.application/json` wrapper collapsed to its schema. -/
structure RequestBodyObj where
  description : String
  schema : Schema

/-- Operation object assembled per entry (lines 225-276).  `parameters`
is `none` when the key is never created (no query string and no path
parameters). -/
structure Operation where
  summary : String
  description : String
  operationId : String
  responses : List (String × RespEntry)
  requestBody : Option RequestBodyObj
  parameters : Option (List Param)

/-- Query parameter object (lines 257-263). -/
def mkQueryParam (name : String) : Param :=
  { name := name
    location := "query"
    required := true
    description := "Query parameter: " ++ name
    schema := .simple "string" }

/-- Path parameter object (lines 270-276). -/
def mkPathParam (name orig : String) : Param :=
  { name := name
    location := "path"
    required := true
    description := "Path parameter: " ++ name ++ " (e.g., " ++ orig ++ ")"
    schema := .simple "string" }

/-- Operation derived from one entry (lines 211-276): a pure function of
the entry alone.  The source computes `standardize_path` once per entry;
it is recomputed here, which is the same value. -/
def mkOperation (e : Entry) : Operation :=
  let parsed := e.request.url
  let std := standardize_path parsed.path
  let path := std.1
  let param_mapping := std.2
  let method := strLower (e.request.method.getD "GET")
  let status := e.response.status.getD 200
  let qps := parse_qs parsed.query
  { summary := strUpper method ++ " " ++ path
    description := generate_endpoint_description path method e.request e.response
    operationId := method ++ "_" ++ String.mk (path.data.map (fun c => if c = '/' then '_' else c))
    responses := [(toString status,
      { description := e.response.statusText.getD ""
        schema := extract_schema_from_json (respTextParse e.response) })]
    requestBody := e.request.postData.map (fun pd =>
      { description := "Request body containing the data to be processed"
        schema := extract_schema_from_json (pdTextParse pd) })
    parameters :=
      if qps.isEmpty && param_mapping.isEmpty then none
      else some (qps.map (fun kv => mkQueryParam kv.1) ++
        param_mapping.map (fun kv => mkPathParam kv.2 kv.1)) }

/-- The `paths` section of the document: template, then method, then
operation, both levels in insertion order. -/
def PathsDict : Type := List (String × List (String × Operation))

/-- Truth of the path filter's skip condition (line 208): a configured
filter the raw path does not start with.  Python's falsy test makes an
empty-string filter equivalent to an absent one; both are modelled by
matching the option. -/
def skipByFilter (pfx : Option String) (path : String) : Bool :=
  match pfx with
  | some pre => !strStartsWith path pre
  | none => false

/-- Per-entry step of `convert_har_to_openapi` (lines 194-279): skip
non-`http` schemes and filtered paths, otherwise build the operation and
store it at `paths[path][method]` (creating the path entry when absent,
overwriting the method slot when present). -/
def processEntry (paths : PathsDict) (pfx : Option String) (e : Entry) : PathsDict :=
  let parsed := e.request.url
  if !strStartsWith parsed.scheme "http" then paths
  else if skipByFilter pfx parsed.path then paths
  else
    let path := (standardize_path parsed.path).1
    let method := strLower (e.request.method.getD "GET")
    let inner := (dictLookup paths path).getD []
    dictInsert paths path (dictInsert inner method (mkOperation e))

/-- The `paths` section assembled from the whole log, in entry order. -/
def convertPaths (entries : List Entry) (pfx : Option String) : PathsDict :=
  entries.foldl (fun acc e => processEntry acc pfx e) []

/-- Document skeleton of `convert_har_to_openapi` (lines 158-281): fixed
metadata and security constants around the assembled `paths` section. -/
structure Document where
  openapi : String
  title : String
  version : String
  description : String
  paths : PathsDict
  securityScheme : String

/-- Embedding of `convert_har_to_openapi` on a decoded entry list (the
file read and JSON decode are external to the core). -/
def convert_har_to_openapi (entries : List Entry) (pfx : Option String) : Document :=
  { openapi := "3.0.0"
    title := "API Specification"
    version := "1.0.0"
    description := "Generated from HAR file" ++
      (match pfx with
       | some pre => " (filtered by path prefix: " ++ pre ++ ")"
       | none => "")
    paths := convertPaths entries pfx
    securityScheme := "cookieAuth" }

/-- Pure per-segment rewrite performed by the loop of `standardize_path`:
the placeholder for a matching segment, the segment itself otherwise. -/
def transformSeg (i : Nat) (s : List Char) : List Char :=
  if s = [] then s
  else
    match matchKind s with
    | some kind => '{' :: (paramName kind i ++ ['}'])
    | none => s

/-- Index-aware map of `transformSeg` over the segments. -/
def segMapFrom : Nat → List (List Char) → List (List Char)
  | _, [] => []
  | i, s :: rest => transformSeg i s :: segMapFrom (i + 1) rest

/-- The `required` list of an object schema, empty when absent. -/
def requiredListOf : Schema → List String
  | .object _ (some r) => r
  | _ => []

/-- Request whose body text is present but not parseable as JSON. -/
def rqClaim3 : Request :=
  { method := none
    url := { scheme := "https", path := "/items", query := "" }
    postData := some { text := some none } }

/-- Response whose body text is present but not parseable as JSON. -/
def rsClaim3 : Response :=
  { status := none, statusText := none
    content := some { mimeType := none, text := some none } }

/-- Request with no body, used alongside the array-body responses. -/
def rqClaim9 : Request :=
  { method := none
    url := { scheme := "https", path := "/items", query := "" }
    postData := none }

/-- Response whose body parses to the empty JSON array. -/
def rsClaim9 : Response :=
  { status := none, statusText := none
    content := some { mimeType := none, text := some (some (.arr [])) } }

/-- Entry with scheme `httpfoo`, which is neither `http` nor `https` yet
passes the source's `scheme.startswith('http')` test. -/
def eClaim8 : Entry :=
  { request := { method := some "GET"
                 url := { scheme := "httpfoo", path := "/x", query := "" }
                 postData := none }
    response := { status := some 200, statusText := none, content := none } }

/-- Entry with a non-`http` scheme, skipped outright. -/
def eClaim8b : Entry :=
  { request := { method := some "GET"
                 url := { scheme := "ftp", path := "/y", query := "" }
                 postData := none }
    response := { status := none, statusText := none, content := none } }

/-- First GET entry of the claim's pair, to `/users/1`. -/
def eClaim2a : Entry :=
  { request := { method := some "GET"
                 url := { scheme := "https", path := "/users/1", query := "" }
                 postData := none }
    response := { status := some 200, statusText := some "OK"
                  content := some { mimeType := some "application/json"
                                    text := some (some (.obj [("id", .int 1)])) } } }

/-- Second GET entry of the claim's pair, to `/users/2`. -/
def eClaim2b : Entry :=
  { request := { method := some "GET"
                 url := { scheme := "https", path := "/users/2", query := "" }
                 postData := none }
    response := { status := some 200, statusText := some "OK"
                  content := some { mimeType := some "application/json"
                                    text := some (some (.obj [("id", .int 2)])) } } }

@[simp] theorem nth_nil {α : Type _} (n : Nat) : nth ([] : List α) n = none := rfl

@[simp] theorem nth_cons_zero {α : Type _} (a : α) (l : List α) : nth (a :: l) 0 = some a := rfl

@[simp] theorem nth_cons_succ {α : Type _} (a : α) (l : List α) (n : Nat) :
    nth (a :: l) (n + 1) = nth l n := rfl

@[simp] theorem joinChar_nil (sep : Char) : joinChar sep [] = [] := rfl

@[simp] theorem joinChar_single (sep : Char) (s : List Char) : joinChar sep [s] = s := rfl

@[simp] theorem joinChar_cons₂ (sep : Char) (s t : List Char) (ts : List (List Char)) :
    joinChar sep (s :: t :: ts) = s ++ sep :: joinChar sep (t :: ts) := rfl

theorem splitOnChar_ne_nil (sep : Char) (l : List Char) : splitOnChar sep l ≠ [] := by
  cases l with
  | nil => simp [splitOnChar]
  | cons c rest =>
    simp only [splitOnChar]
    split
    · simp
    · split <;> simp

theorem splitOnChar_cons_sep (sep : Char) (rest : List Char) :
    splitOnChar sep (sep :: rest) = [] :: splitOnChar sep rest := by
  simp [splitOnChar]

theorem splitOnChar_cons_ne (sep c : Char) (rest : List Char) (h : c ≠ sep)
    (t : List Char) (ts : List (List Char)) (hts : splitOnChar sep rest = t :: ts) :
    splitOnChar sep (c :: rest) = (c :: t) :: ts := by
  simp [splitOnChar, if_neg h, hts]

theorem splitOnChar_dest (sep : Char) (l : List Char) :
    ∃ t ts, splitOnChar sep l = t :: ts := by
  cases hs : splitOnChar sep l with
  | nil => exact absurd hs (splitOnChar_ne_nil sep l)
  | cons t ts => exact ⟨t, ts, rfl⟩

theorem joinChar_splitOnChar (sep : Char) (l : List Char) :
    joinChar sep (splitOnChar sep l) = l := by
  induction l with
  | nil => rfl
  | cons c rest ih =>
    obtain ⟨t, ts, hts⟩ := splitOnChar_dest sep rest
    by_cases h : c = sep
    · subst h
      rw [splitOnChar_cons_sep, hts, joinChar_cons₂, ← hts, ih]
      rfl
    · rw [splitOnChar_cons_ne sep c rest h t ts hts]
      rw [hts] at ih
      cases ts with
      | nil => simpa using ih
      | cons u us => simpa using ih

theorem splitOnChar_no_sep (sep : Char) (l : List Char) :
    ∀ s ∈ splitOnChar sep l, sep ∉ s := by
  induction l with
  | nil => simp [splitOnChar]
  | cons c rest ih =>
    obtain ⟨t, ts, hts⟩ := splitOnChar_dest sep rest
    rw [hts] at ih
    by_cases h : c = sep
    · subst h
      rw [splitOnChar_cons_sep, hts]
      intro s hs
      rcases List.mem_cons.mp hs with h' | h'
      · subst h'; simp
      · exact ih s (hts ▸ h')
    · rw [splitOnChar_cons_ne sep c rest h t ts hts]
      intro s hmem
      rcases List.mem_cons.mp hmem with h' | h'
      · subst h'
        intro hc
        rcases List.mem_cons.mp hc with h'' | h''
        · exact h h''.symm
        · exact ih t (List.mem_cons_self t ts) h''
      · exact ih s (List.mem_cons_of_mem t h')

theorem splitOnChar_of_no_sep (sep : Char) (s : List Char) (h : sep ∉ s) :
    splitOnChar sep s = [s] := by
  induction s with
  | nil => rfl
  | cons c rest ih =>
    have hc : c ≠ sep := fun hc => h (hc ▸ List.mem_cons_self c rest)
    have hr : sep ∉ rest := fun hr => h (List.mem_cons_of_mem c hr)
    exact splitOnChar_cons_ne sep c rest hc rest [] (ih hr)

theorem splitOnChar_append_sep (sep : Char) (s rest : List Char) (h : sep ∉ s) :
    splitOnChar sep (s ++ sep :: rest) = s :: splitOnChar sep rest := by
  induction s with
  | nil => simpa using splitOnChar_cons_sep sep rest
  | cons c s' ih =>
    have hc : c ≠ sep := fun hc => h (hc ▸ List.mem_cons_self c s')
    have hs' : sep ∉ s' := fun hs => h (List.mem_cons_of_mem c hs)
    obtain ⟨t, ts, hts⟩ := splitOnChar_dest sep rest
    have : splitOnChar sep (s' ++ sep :: rest) = s' :: (t :: ts) := by rw [ih hs', hts]
    calc splitOnChar sep ((c :: s') ++ sep :: rest)
        = splitOnChar sep (c :: (s' ++ sep :: rest)) := by simp
      _ = (c :: s') :: (t :: ts) := splitOnChar_cons_ne sep c _ hc s' (t :: ts) this
      _ = (c :: s') :: splitOnChar sep rest := by rw [hts]

theorem splitOnChar_joinChar (sep : Char) (L : List (List Char)) (hne : L ≠ [])
    (hs : ∀ s ∈ L, sep ∉ s) : splitOnChar sep (joinChar sep L) = L := by
  induction L with
  | nil => exact absurd rfl hne
  | cons s rest ih =>
    cases rest with
    | nil =>
      rw [joinChar_single]
      exact splitOnChar_of_no_sep sep s (hs s (List.mem_cons_self s []))
    | cons t ts =>
      rw [joinChar_cons₂,
        splitOnChar_append_sep sep s (joinChar sep (t :: ts)) (hs s (List.mem_cons_self s _)),
        ih (by simp) (fun u hu => hs u (List.mem_cons_of_mem s hu))]

theorem mem_dictInsert {κ ν : Type _} [DecidableEq κ] (m : List (κ × ν)) (k : κ) (v : ν)
    (e : κ × ν) (h : e ∈ dictInsert m k v) : e ∈ m ∨ e = (k, v) := by
  induction m with
  | nil => simpa [dictInsert] using h
  | cons p rest ih =>
    rw [dictInsert] at h
    split at h
    · rcases List.mem_cons.mp h with h' | h'
      · exact Or.inr h'
      · exact Or.inl (List.mem_cons_of_mem p h')
    · rcases List.mem_cons.mp h with h' | h'
      · exact Or.inl (h' ▸ List.mem_cons_self p rest)
      · rcases ih h' with h'' | h''
        · exact Or.inl (List.mem_cons_of_mem p h'')
        · exact Or.inr h''

theorem dictKeys_dictInsert_sub {κ ν : Type _} [DecidableEq κ] (m : List (κ × ν)) (k : κ)
    (v : ν) (a : κ) (h : a ∈ dictKeys (dictInsert m k v)) : a ∈ dictKeys m ∨ a = k := by
  obtain ⟨e, he, rfl⟩ := List.mem_map.mp h
  rcases mem_dictInsert m k v e he with h' | h'
  · exact Or.inl (List.mem_map_of_mem Prod.fst h')
  · exact Or.inr (by rw [h'])

theorem dictKeys_dictInsert_nodup {κ ν : Type _} [DecidableEq κ] (m : List (κ × ν))
    (k : κ) (v : ν) (h : (dictKeys m).Nodup) : (dictKeys (dictInsert m k v)).Nodup := by
  induction m with
  | nil => simp [dictInsert, dictKeys]
  | cons p rest ih =>
    simp only [dictKeys, List.map_cons, List.nodup_cons] at h
    rw [dictInsert]
    split
    · rename_i heq
      subst heq
      simpa [dictKeys, List.nodup_cons] using h
    · rename_i hne
      simp only [dictKeys, List.map_cons, List.nodup_cons]
      refine ⟨fun hmem => ?_, ih h.2⟩
      rcases dictKeys_dictInsert_sub rest k v p.1 hmem with h' | h'
      · exact h.1 h'
      · exact hne h'

theorem dictLookup_dictInsert_self {κ ν : Type _} [DecidableEq κ] (m : List (κ × ν))
    (k : κ) (v : ν) : dictLookup (dictInsert m k v) k = some v := by
  induction m with
  | nil => simp [dictInsert, dictLookup]
  | cons p rest ih =>
    rw [dictInsert]
    split
    · simp [dictLookup]
    · rename_i hne
      rw [dictLookup, if_neg hne, ih]

theorem dictLookup_dictInsert_ne {κ ν : Type _} [DecidableEq κ] (m : List (κ × ν))
    (k k' : κ) (v : ν) (h : k ≠ k') :
    dictLookup (dictInsert m k v) k' = dictLookup m k' := by
  induction m with
  | nil => simp [dictInsert, dictLookup, if_neg h]
  | cons p rest ih =>
    rw [dictInsert]
    split
    · rename_i heq
      subst heq
      rw [dictLookup, if_neg h, dictLookup, if_neg h]
    · rw [dictLookup, dictLookup]
      split
      · rfl
      · exact ih

theorem countKey_eq_zero {κ ν : Type _} [DecidableEq κ] (m : List (κ × ν)) (k : κ)
    (h : k ∉ dictKeys m) : countKey m k = 0 := by
  induction m with
  | nil => rfl
  | cons p rest ih =>
    simp only [dictKeys, List.map_cons, List.mem_cons, not_or] at h
    have hp : ¬p.1 = k := fun hp => h.1 hp.symm
    simp only [countKey, List.filter_cons, decide_eq_true_eq, if_neg hp]
    exact ih h.2

theorem countKey_eq_one {κ ν : Type _} [DecidableEq κ] (m : List (κ × ν)) (k : κ) (v : ν)
    (hnd : (dictKeys m).Nodup) (h : dictLookup m k = some v) : countKey m k = 1 := by
  induction m with
  | nil => simp [dictLookup] at h
  | cons p rest ih =>
    simp only [dictKeys, List.map_cons, List.nodup_cons] at hnd
    rw [dictLookup] at h
    split at h
    · rename_i heq
      subst heq
      have h0 : countKey rest p.1 = 0 := countKey_eq_zero rest p.1 hnd.1
      simp only [countKey] at h0 ⊢
      simp [List.filter_cons, h0]
    · rename_i hne
      simp only [countKey, List.filter_cons, decide_eq_true_eq, if_neg hne]
      exact ih hnd.2 h

theorem digitChar_isDigit (n : Nat) (h : n < 10) : (digitChar n).isDigit = true := by
  interval_cases n <;> decide

theorem digitChar_inj (a b : Nat) (ha : a < 10) (hb : b < 10)
    (h : digitChar a = digitChar b) : a = b := by
  interval_cases a <;> interval_cases b <;> simp_all <;> exact absurd h (by decide)

theorem natDigitsAux_isDigit (fuel n : Nat) :
    ∀ c ∈ natDigitsAux fuel n, c.isDigit = true := by
  induction fuel generalizing n with
  | zero => simp [natDigitsAux]
  | succ f ih =>
    rw [natDigitsAux]
    split
    · rename_i h
      intro c hc
      rw [List.mem_singleton.mp hc]
      exact digitChar_isDigit n h
    · intro c hc
      rcases List.mem_append.mp hc with h' | h'
      · exact ih (n / 10) c h'
      · rw [List.mem_singleton.mp h']
        exact digitChar_isDigit (n % 10) (Nat.mod_lt n (by omega))

theorem natDigits_isDigit (n : Nat) : ∀ c ∈ natDigits n, c.isDigit = true :=
  natDigitsAux_isDigit (n + 1) n

theorem natDigitsAux_ne_nil (fuel n : Nat) (h : 0 < fuel) : natDigitsAux fuel n ≠ [] := by
  cases fuel with
  | zero => omega
  | succ f =>
    rw [natDigitsAux]
    split
    · simp
    · simp

theorem natDigitsAux_inj (f1 : Nat) : ∀ f2 n m : Nat, n < f1 → m < f2 →
    natDigitsAux f1 n = natDigitsAux f2 m → n = m := by
  induction f1 with
  | zero => intro f2 n m h1; omega
  | succ f ih =>
    intro f2 n m h1 h2 heq
    cases f2 with
    | zero => omega
    | succ f2' =>
      rw [natDigitsAux, natDigitsAux] at heq
      by_cases hn : n < 10
      · by_cases hm : m < 10
        · rw [if_pos hn, if_pos hm] at heq
          exact digitChar_inj n m hn hm (List.singleton_injective heq)
        · rw [if_pos hn, if_neg hm] at heq
          have hlen := congrArg List.length heq
          have hne : natDigitsAux f2' (m / 10) ≠ [] :=
            natDigitsAux_ne_nil f2' (m / 10) (by omega)
          simp only [List.length_singleton, List.length_append] at hlen
          cases hd : natDigitsAux f2' (m / 10) with
          | nil => exact absurd hd hne
          | cons a l => rw [hd] at hlen; simp at hlen
      · by_cases hm : m < 10
        · rw [if_neg hn, if_pos hm] at heq
          have hlen := congrArg List.length heq
          have hne : natDigitsAux f (n / 10) ≠ [] :=
            natDigitsAux_ne_nil f (n / 10) (by omega)
          simp only [List.length_singleton, List.length_append] at hlen
          cases hd : natDigitsAux f (n / 10) with
          | nil => exact absurd hd hne
          | cons a l => rw [hd] at hlen; simp at hlen
        · rw [if_neg hn, if_neg hm] at heq
          obtain ⟨heq1, heq2⟩ := List.append_inj' heq rfl
          have hmod : n % 10 = m % 10 :=
            digitChar_inj _ _ (Nat.mod_lt n (by omega)) (Nat.mod_lt m (by omega))
              (List.singleton_injective heq2)
          have hdiv : n / 10 = m / 10 := by
            refine ih f2' (n / 10) (m / 10) ?_ ?_ heq1 <;> omega
          omega

theorem natDigits_inj (n m : Nat) (h : natDigits n = natDigits m) : n = m :=
  natDigitsAux_inj (n + 1) (m + 1) n m (by omega) (by omega) h

theorem matchKind_nil : matchKind [] = none := rfl

theorem matchKind_brace (s : List Char) : matchKind ('{' :: s) = none := by
  have h1 : ('{' : Char).isDigit = false := rfl
  have h2 : isHexLowerChar '{' = false := rfl
  have h3 : isTokenChar '{' = false := rfl
  have h4 : decide (('{' : Char) = '-') = false := rfl
  simp [matchKind, isDigitSeg, isUuidSeg, isHashSeg, isTokenSeg, List.all_cons, h1, h2, h3, h4]

theorem matchKind_kinds (s k : List Char) (h : matchKind s = some k) :
    k = "id".data ∨ k = "uuid".data ∨ k = "hash".data ∨ k = "token".data := by
  unfold matchKind at h
  split_ifs at h <;> simp_all

theorem matchKind_ne_nil (s k : List Char) (h : matchKind s = some k) : s ≠ [] := by
  intro hs
  rw [hs, matchKind_nil] at h
  exact Option.noConfusion h

theorem kind_no_slash (k : List Char)
    (hk : k = "id".data ∨ k = "uuid".data ∨ k = "hash".data ∨ k = "token".data) :
    '/' ∉ k := by
  rcases hk with h | h | h | h <;> subst h <;> decide

theorem paramName_no_slash (kind : List Char) (i : Nat) (h : '/' ∉ kind) :
    '/' ∉ paramName kind i := by
  unfold paramName
  split
  · exact h
  · intro hmem
    rcases List.mem_append.mp hmem with h' | h'
    · exact h h'
    · rcases List.mem_cons.mp h' with h'' | h''
      · exact absurd h'' (by decide)
      · have := natDigits_isDigit i '/' h''
        exact absurd this (by decide)

theorem transformSeg_no_slash (i : Nat) (s : List Char) (h : '/' ∉ s) :
    '/' ∉ transformSeg i s := by
  unfold transformSeg
  split
  · exact h
  · split
    · rename_i kind hkind
      intro hmem
      rcases List.mem_cons.mp hmem with h' | h'
      · exact absurd h' (by decide)
      · rcases List.mem_append.mp h' with h'' | h''
        · exact paramName_no_slash kind i (kind_no_slash kind (matchKind_kinds s kind hkind)) h''
        · rcases List.mem_singleton.mp h'' with h'''
          exact absurd h''' (by decide)
    · exact h

theorem matchKind_transformSeg (i : Nat) (s : List Char) :
    transformSeg i s = [] ∨ matchKind (transformSeg i s) = none := by
  unfold transformSeg
  split
  · rename_i hs
    exact Or.inl hs
  · split
    · exact Or.inr (matchKind_brace _)
    · rename_i hnone
      exact Or.inr hnone

theorem stdLoop_fst (l : List (List Char)) : ∀ (i : Nat) (m : List (List Char × List Char)),
    (stdLoop l i m).1 = segMapFrom i l := by
  induction l with
  | nil => intro i m; rfl
  | cons s rest ih =>
    intro i m
    rw [stdLoop, segMapFrom]
    by_cases hs : s = []
    · simp [hs, transformSeg, ih]
    · rw [if_neg hs]
      cases hm : matchKind s with
      | some kind => simp only [transformSeg, if_neg hs, hm]; rw [ih]
      | none => simp only [transformSeg, if_neg hs, hm]; rw [ih]

theorem segMapFrom_nth (l : List (List Char)) : ∀ i j : Nat,
    nth (segMapFrom i l) j = (nth l j).map (transformSeg (i + j)) := by
  induction l with
  | nil => intro i j; simp [segMapFrom]
  | cons s rest ih =>
    intro i j
    cases j with
    | zero => simp [segMapFrom]
    | succ j' =>
      rw [segMapFrom, nth_cons_succ, nth_cons_succ, ih (i + 1) j']
      have : i + 1 + j' = i + (j' + 1) := by omega
      rw [this]

theorem segMapFrom_length (l : List (List Char)) : ∀ i : Nat,
    (segMapFrom i l).length = l.length := by
  induction l with
  | nil => intro i; rfl
  | cons s rest ih => intro i; simp [segMapFrom, ih]

theorem segMapFrom_unmatched (l : List (List Char)) : ∀ i : Nat,
    ∀ u ∈ segMapFrom i l, u = [] ∨ matchKind u = none := by
  induction l with
  | nil => intro i; simp [segMapFrom]
  | cons s rest ih =>
    intro i u hu
    rcases List.mem_cons.mp hu with h' | h'
    · exact h' ▸ matchKind_transformSeg i s
    · exact ih (i + 1) u h'

theorem stdLoop_unmatched (l : List (List Char))
    (h : ∀ u ∈ l, u = [] ∨ matchKind u = none) :
    ∀ (i : Nat) (m : List (List Char × List Char)), stdLoop l i m = (l, m) := by
  induction l with
  | nil => intro i m; rfl
  | cons s rest ih =>
    intro i m
    have hrest : ∀ u ∈ rest, u = [] ∨ matchKind u = none :=
      fun u hu => h u (List.mem_cons_of_mem s hu)
    rcases h s (List.mem_cons_self s rest) with hs | hs
    · rw [stdLoop, if_pos hs, ih hrest]
    · by_cases hs' : s = []
      · rw [stdLoop, if_pos hs', ih hrest]
      · rw [stdLoop, if_neg hs', hs, ih hrest]

theorem segMapFrom_no_slash (l : List (List Char)) : ∀ i : Nat, (∀ s ∈ l, '/' ∉ s) →
    ∀ u ∈ segMapFrom i l, '/' ∉ u := by
  induction l with
  | nil => intro i _; simp [segMapFrom]
  | cons s rest ih =>
    intro i h u hu
    rcases List.mem_cons.mp hu with h' | h'
    · exact h' ▸ transformSeg_no_slash i s (h s (List.mem_cons_self s rest))
    · exact ih (i + 1) (fun v hv => h v (List.mem_cons_of_mem s hv)) u h'

theorem stdPath_eq (x : List Char) :
    stdPath x = (joinChar '/' (stdLoop (splitOnChar '/' x) 0 []).1,
      (stdLoop (splitOnChar '/' x) 0 []).2) := rfl

theorem stdPath_fst (p : List Char) :
    (stdPath p).1 = joinChar '/' (segMapFrom 0 (splitOnChar '/' p)) := by
  rw [stdPath_eq, stdLoop_fst]

theorem segMapFrom_ne_nil (l : List (List Char)) (i : Nat) (h : l ≠ []) :
    segMapFrom i l ≠ [] := by
  intro hc
  have := segMapFrom_length l i
  rw [hc] at this
  exact h (List.length_eq_zero.mp this.symm)

theorem stdPath_fst_split (p : List Char) :
    splitOnChar '/' (stdPath p).1 = segMapFrom 0 (splitOnChar '/' p) := by
  rw [stdPath_fst]
  exact splitOnChar_joinChar '/' _
    (segMapFrom_ne_nil _ 0 (splitOnChar_ne_nil '/' p))
    (segMapFrom_no_slash _ 0 (splitOnChar_no_sep '/' p))

theorem stdPath_idem (p : List Char) : stdPath (stdPath p).1 = ((stdPath p).1, []) := by
  have h1 : stdLoop (splitOnChar '/' (stdPath p).1) 0 [] =
      (segMapFrom 0 (splitOnChar '/' p), []) := by
    rw [stdPath_fst_split]
    exact stdLoop_unmatched _ (segMapFrom_unmatched _ 0) 0 []
  rw [stdPath_eq ((stdPath p).1), h1]
  exact Prod.ext (stdPath_fst p).symm rfl

theorem mem_iff_nth {α : Type _} (l : List α) (a : α) : a ∈ l ↔ ∃ i, nth l i = some a := by
  induction l with
  | nil => simp
  | cons s rest ih =>
    constructor
    · intro h
      rcases List.mem_cons.mp h with h' | h'
      · exact ⟨0, by rw [h', nth_cons_zero]⟩
      · obtain ⟨i, hi⟩ := ih.mp h'
        exact ⟨i + 1, by rw [nth_cons_succ]; exact hi⟩
    · rintro ⟨i, hi⟩
      cases i with
      | zero =>
        rw [nth_cons_zero, Option.some_inj] at hi
        exact hi ▸ List.mem_cons_self s rest
      | succ i' =>
        rw [nth_cons_succ] at hi
        exact List.mem_cons_of_mem s (ih.mpr ⟨i', hi⟩)

theorem stdLoop_snd_cons (s : List Char) (rest : List (List Char)) (i : Nat)
    (m : List (List Char × List Char)) :
    (stdLoop (s :: rest) i m).2 =
      if s = [] then (stdLoop rest (i + 1) m).2
      else
        match matchKind s with
        | some kind => (stdLoop rest (i + 1) (dictInsert m s (paramName kind i))).2
        | none => (stdLoop rest (i + 1) m).2 := by
  by_cases hs : s = []
  · rw [stdLoop, if_pos hs, if_pos hs]
  · rw [stdLoop, if_neg hs, if_neg hs]
    cases hm : matchKind s <;> simp [hm]

theorem stdLoop_snd_not_mem (l : List (List Char)) :
    ∀ (i : Nat) (m : List (List Char × List Char)) (s : List Char), s ∉ l →
      dictLookup (stdLoop l i m).2 s = dictLookup m s := by
  induction l with
  | nil => intro i m s _; rfl
  | cons u rest ih =>
    intro i m s hs
    have hne : s ≠ u := fun h => hs (h ▸ List.mem_cons_self u rest)
    have hrest : s ∉ rest := fun h => hs (List.mem_cons_of_mem u h)
    rw [stdLoop_snd_cons]
    by_cases hu : u = []
    · rw [if_pos hu]; exact ih (i + 1) m s hrest
    · rw [if_neg hu]
      cases hm : matchKind u with
      | some kind =>
        rw [ih (i + 1) _ s hrest]
        exact dictLookup_dictInsert_ne m u s _ (fun h => hne h.symm)
      | none => exact ih (i + 1) m s hrest

theorem stdLoop_snd_last (l : List (List Char)) :
    ∀ (i : Nat) (m : List (List Char × List Char)) (j : Nat) (s kind : List Char),
      nth l j = some s → matchKind s = some kind →
      (∀ k, j < k → nth l k ≠ some s) →
      dictLookup (stdLoop l i m).2 s = some (paramName kind (i + j)) := by
  induction l with
  | nil => intro i m j s kind hj; rw [nth_nil] at hj; exact absurd hj (by simp)
  | cons u rest ih =>
    intro i m j s kind hj hmk hlast
    cases j with
    | zero =>
      rw [nth_cons_zero, Option.some_inj] at hj
      subst hj
      have hnil : u ≠ [] := matchKind_ne_nil u kind hmk
      have hrest : u ∉ rest := by
        rw [mem_iff_nth]
        rintro ⟨k, hk⟩
        exact hlast (k + 1) (by omega) (by rw [nth_cons_succ]; exact hk)
      rw [stdLoop_snd_cons, if_neg hnil, hmk,
        stdLoop_snd_not_mem rest (i + 1) _ u hrest,
        dictLookup_dictInsert_self]
      rw [Nat.add_zero]
    | succ j' =>
      rw [nth_cons_succ] at hj
      have hlast' : ∀ k, j' < k → nth rest k ≠ some s := by
        intro k hk
        have := hlast (k + 1) (by omega)
        rwa [nth_cons_succ] at this
      have harith : i + 1 + j' = i + (j' + 1) := by omega
      rw [stdLoop_snd_cons]
      by_cases hu : u = []
      · rw [if_pos hu, ih (i + 1) m j' s kind hj hmk hlast', harith]
      · rw [if_neg hu]
        cases hm : matchKind u with
        | some ku => rw [ih (i + 1) _ j' s kind hj hmk hlast', harith]
        | none => rw [ih (i + 1) m j' s kind hj hmk hlast', harith]

theorem stdLoop_snd_nodup (l : List (List Char)) :
    ∀ (i : Nat) (m : List (List Char × List Char)), (dictKeys m).Nodup →
      (dictKeys (stdLoop l i m).2).Nodup := by
  induction l with
  | nil => intro i m h; exact h
  | cons u rest ih =>
    intro i m h
    rw [stdLoop_snd_cons]
    by_cases hu : u = []
    · rw [if_pos hu]; exact ih (i + 1) m h
    · rw [if_neg hu]
      cases hm : matchKind u with
      | some kind => exact ih (i + 1) _ (dictKeys_dictInsert_nodup m u _ h)
      | none => exact ih (i + 1) m h

theorem stdLoop_snd_mem (l : List (List Char)) :
    ∀ (i : Nat) (m : List (List Char × List Char)) (e : List Char × List Char),
      e ∈ (stdLoop l i m).2 →
      e ∈ m ∨ ∃ j kind, nth l j = some e.1 ∧ matchKind e.1 = some kind ∧
        e.2 = paramName kind (i + j) := by
  induction l with
  | nil => intro i m e h; exact Or.inl h
  | cons u rest ih =>
    intro i m e h
    rw [stdLoop_snd_cons] at h
    by_cases hu : u = []
    · rw [if_pos hu] at h
      rcases ih (i + 1) m e h with h' | ⟨j, kind, h1, h2, h3⟩
      · exact Or.inl h'
      · exact Or.inr ⟨j + 1, kind, by rw [nth_cons_succ]; exact h1, h2,
          by rw [h3]; congr 1; omega⟩
    · rw [if_neg hu] at h
      cases hm : matchKind u with
      | some ku =>
        rw [hm] at h
        rcases ih (i + 1) _ e h with h' | ⟨j, kind, h1, h2, h3⟩
        · rcases mem_dictInsert m u _ e h' with h'' | h''
          · exact Or.inl h''
          · refine Or.inr ⟨0, ku, ?_, ?_, ?_⟩
            · rw [h'', nth_cons_zero]
            · rw [h'']; exact hm
            · rw [h'', Nat.add_zero]
        · exact Or.inr ⟨j + 1, kind, by rw [nth_cons_succ]; exact h1, h2,
            by rw [h3]; congr 1; omega⟩
      | none =>
        rw [hm] at h
        rcases ih (i + 1) m e h with h' | ⟨j, kind, h1, h2, h3⟩
        · exact Or.inl h'
        · exact Or.inr ⟨j + 1, kind, by rw [nth_cons_succ]; exact h1, h2,
            by rw [h3]; congr 1; omega⟩

theorem paramName_head (c : Char) (tl : List Char) (i : Nat) :
    (paramName (c :: tl) i).head? = some c := by
  unfold paramName
  split
  · rfl
  · rfl

theorem natDigits_ne_nil (n : Nat) : natDigits n ≠ [] :=
  natDigitsAux_ne_nil (n + 1) n (by omega)

theorem paramName_inj_same (k : List Char) (i j : Nat)
    (h : paramName k i = paramName k j) : i = j := by
  unfold paramName at h
  by_cases hi : i = 0 <;> by_cases hj : j = 0
  · omega
  · rw [if_pos hi, if_neg hj] at h
    have hlen := congrArg List.length h
    simp [List.length_append] at hlen
  · rw [if_neg hi, if_pos hj] at h
    have hlen := congrArg List.length h
    simp [List.length_append] at hlen
  · rw [if_neg hi, if_neg hj] at h
    have h2 := List.append_cancel_left h
    rw [List.cons.injEq] at h2
    exact natDigits_inj i j h2.2

theorem paramName_inj (ka kb : List Char) (i j : Nat)
    (ha : ka = "id".data ∨ ka = "uuid".data ∨ ka = "hash".data ∨ ka = "token".data)
    (hb : kb = "id".data ∨ kb = "uuid".data ∨ kb = "hash".data ∨ kb = "token".data)
    (h : paramName ka i = paramName kb j) : ka = kb ∧ i = j := by
  have eid : "id".data = ['i', 'd'] := rfl
  have euuid : "uuid".data = ['u', 'u', 'i', 'd'] := rfl
  have ehash : "hash".data = ['h', 'a', 's', 'h'] := rfl
  have etoken : "token".data = ['t', 'o', 'k', 'e', 'n'] := rfl
  rcases ha with rfl | rfl | rfl | rfl <;> rcases hb with rfl | rfl | rfl | rfl <;>
    simp only [eid, euuid, ehash, etoken] at h <;>
    first
      | exact ⟨rfl, paramName_inj_same _ i j h⟩
      | (have hhead := congrArg List.head? h
         rw [paramName_head, paramName_head] at hhead
         exact absurd hhead (by decide))

theorem str_append_empty (s : String) : s ++ "" = s := by
  cases s with
  | mk l => exact congrArg String.mk (List.append_nil l)

theorem isNull_iff (v : Json) : v.isNull = true ↔ v = Json.null := by
  cases v <;> simp [Json.isNull]

theorem requiredKeys_sub (pairs : List (String × Json)) (k : String)
    (h : k ∈ requiredKeys pairs) : k ∈ pairs.map Prod.fst := by
  induction pairs with
  | nil => exact absurd h (by simp [requiredKeys])
  | cons p rest ih =>
    rw [requiredKeys] at h
    split at h
    · exact List.mem_cons_of_mem _ (ih h)
    · rcases List.mem_cons.mp h with h' | h'
      · exact h' ▸ List.mem_cons_self _ _
      · exact List.mem_cons_of_mem _ (ih h')

theorem mem_requiredKeys (pairs : List (String × Json)) (k : String) (v : Json)
    (hnd : (pairs.map Prod.fst).Nodup) (hmem : (k, v) ∈ pairs) :
    k ∈ requiredKeys pairs ↔ v ≠ .null := by
  induction pairs with
  | nil => exact absurd hmem (List.not_mem_nil _)
  | cons p rest ih =>
    obtain ⟨k', v'⟩ := p
    simp only [List.map_cons, List.nodup_cons] at hnd
    rcases List.mem_cons.mp hmem with h' | h'
    · obtain ⟨rfl, rfl⟩ := Prod.mk.injEq .. ▸ h'
      rw [requiredKeys]
      by_cases hv : v.isNull
      · rw [if_pos hv]
        rw [isNull_iff] at hv
        constructor
        · intro hk
          exact absurd (requiredKeys_sub rest k hk) hnd.1
        · intro hk
          exact absurd hv hk
      · rw [if_neg hv]
        rw [isNull_iff] at hv
        simp [hv]
    · have hk : k ∈ rest.map Prod.fst := List.mem_map_of_mem Prod.fst h'
      have hkk : k ≠ k' := fun h => hnd.1 (h ▸ hk)
      rw [requiredKeys]
      split
      · exact ih hnd.2 h'
      · rw [List.mem_cons]
        constructor
        · intro hc
          rcases hc with hc | hc
          · exact absurd hc hkk
          · exact (ih hnd.2 h').mp hc
        · intro hc
          exact Or.inr ((ih hnd.2 h').mpr hc)

theorem dictLookup_mem {κ ν : Type _} [DecidableEq κ] (m : List (κ × ν)) (k : κ) (v : ν)
    (h : dictLookup m k = some v) : v ∈ m.map Prod.snd := by
  induction m with
  | nil => simp [dictLookup] at h
  | cons p rest ih =>
    rw [dictLookup] at h
    split at h
    · rw [Option.some_inj] at h
      exact h ▸ List.mem_map_of_mem Prod.snd (List.mem_cons_self p rest)
    · exact List.mem_cons_of_mem _ (ih h)

theorem dictLookup_of_mem_nodup {κ ν : Type _} [DecidableEq κ] (m : List (κ × ν))
    (k : κ) (v : ν) (hnd : (dictKeys m).Nodup) (h : (k, v) ∈ m) :
    dictLookup m k = some v := by
  induction m with
  | nil => exact absurd h (List.not_mem_nil _)
  | cons p rest ih =>
    simp only [dictKeys, List.map_cons, List.nodup_cons] at hnd
    rcases List.mem_cons.mp h with h' | h'
    · rw [← h', dictLookup, if_pos rfl]
    · have hk : k ∈ rest.map Prod.fst := List.mem_map_of_mem Prod.fst h'
      have hkk : p.1 ≠ k := fun hh => hnd.1 (hh ▸ hk)
      rw [dictLookup, if_neg hkk]
      exact ih hnd.2 h'

theorem processEntry_skip_scheme (paths : PathsDict) (pfx : Option String) (e : Entry)
    (h : strStartsWith e.request.url.scheme "http" = false) :
    processEntry paths pfx e = paths := by
  simp [processEntry, h]

theorem processEntry_skip_filter (paths : PathsDict) (pfx : Option String) (e : Entry)
    (h : skipByFilter pfx e.request.url.path = true) :
    processEntry paths pfx e = paths := by
  simp [processEntry, h]

theorem processEntry_pass (paths : PathsDict) (pfx : Option String) (e : Entry)
    (h1 : strStartsWith e.request.url.scheme "http" = true)
    (h2 : skipByFilter pfx e.request.url.path = false) :
    processEntry paths pfx e =
      dictInsert paths (standardize_path e.request.url.path).1
        (dictInsert ((dictLookup paths (standardize_path e.request.url.path).1).getD [])
          (strLower (e.request.method.getD "GET")) (mkOperation e)) := by
  simp [processEntry, h1, h2]

theorem processEntry_nodup (paths : PathsDict) (pfx : Option String) (e : Entry)
    (h1 : (dictKeys paths).Nodup)
    (h2 : ∀ inner ∈ paths.map Prod.snd, (dictKeys inner).Nodup) :
    (dictKeys (processEntry paths pfx e)).Nodup ∧
      ∀ inner ∈ (processEntry paths pfx e).map Prod.snd, (dictKeys inner).Nodup := by
  cases hs : strStartsWith e.request.url.scheme "http" with
  | false => rw [processEntry_skip_scheme paths pfx e hs]; exact ⟨h1, h2⟩
  | true =>
    cases hf : skipByFilter pfx e.request.url.path with
    | true => rw [processEntry_skip_filter paths pfx e hf]; exact ⟨h1, h2⟩
    | false =>
      rw [processEntry_pass paths pfx e hs hf]
      constructor
      · exact dictKeys_dictInsert_nodup _ _ _ h1
      · intro inner hmem
        obtain ⟨q, hq, rfl⟩ := List.mem_map.mp hmem
        rcases mem_dictInsert _ _ _ q hq with h' | h'
        · exact h2 q.2 (List.mem_map_of_mem Prod.snd h')
        · rw [h']
          apply dictKeys_dictInsert_nodup
          cases hl : dictLookup paths (standardize_path e.request.url.path).1 with
          | none => simp [dictKeys]
          | some v => exact h2 v (dictLookup_mem _ _ _ hl)

theorem convertPaths_nodup (entries : List Entry) (pfx : Option String) :
    (dictKeys (convertPaths entries pfx)).Nodup ∧
      ∀ inner ∈ (convertPaths entries pfx).map Prod.snd, (dictKeys inner).Nodup := by
  suffices h : ∀ acc : PathsDict, (dictKeys acc).Nodup →
      (∀ inner ∈ acc.map Prod.snd, (dictKeys inner).Nodup) →
      (dictKeys (entries.foldl (fun a e => processEntry a pfx e) acc)).Nodup ∧
        ∀ inner ∈ (entries.foldl (fun a e => processEntry a pfx e) acc).map Prod.snd,
          (dictKeys inner).Nodup by
    exact h [] (by simp [dictKeys]) (by simp)
  induction entries with
  | nil => intro acc ha hb; exact ⟨ha, hb⟩
  | cons e rest ih =>
    intro acc ha hb
    have hstep := processEntry_nodup acc pfx e ha hb
    simp only [List.foldl_cons]
    exact ih (processEntry acc pfx e) hstep.1 hstep.2

theorem requiredListOf_gs (pairs : List (String × Json)) :
    requiredListOf (generate_schema (.obj pairs)) = requiredKeys pairs := by
  rw [generate_schema]
  by_cases h : requiredKeys pairs = []
  · rw [if_pos h, h]
    rfl
  · rw [if_neg h]
    rfl

/-- Claim C5: on a non-empty JSON array `generate_schema` derives the
`items` schema from the first element only; on the empty array it emits an
array schema with no `items` key; `inferSchema([1,2,3])` has integer
items. -/
theorem claim5_items :
    (∀ (v : Json) (rest : List Json),
        generate_schema (.arr (v :: rest)) = .array (some (generate_schema v))) ∧
    generate_schema (.arr ([] : List Json)) = .array none ∧
    generate_schema (.arr [.int 1, .int 2, .int 3]) = .array (some (.simple "integer")) :=
  ⟨fun _ _ => rfl, rfl, rfl⟩

/-- Claim C6: `generate_schema` classifies every boolean value as type
`boolean`, never as `integer` or `number` (the `isinstance(data, bool)`
test precedes the numeric tests in the source, which matters because a
Python `bool` is also an `int`). -/
theorem claim6_boolean (b : Bool) :
    generate_schema (.bool b) = .simple "boolean" ∧
    generate_schema (.bool b) ≠ .simple "integer" ∧
    generate_schema (.bool b) ≠ .simple "number" := by
  refine ⟨rfl, ?_, ?_⟩
  · intro h
    rw [show generate_schema (.bool b) = .simple "boolean" from rfl] at h
    injection h with h'
    exact absurd h' (by decide)
  · intro h
    rw [show generate_schema (.bool b) = .simple "boolean" from rfl] at h
    injection h with h'
    exact absurd h' (by decide)

/-- Claim C7: `standardize_path` is idempotent on its own output — a
second normalization pass returns the template unchanged (and records no
parameters), because placeholder segments `{name}` match none of the
patterns. -/
theorem claim7_idempotent (p : String) :
    standardize_path ((standardize_path p).1) = ((standardize_path p).1, []) := by
  show (String.mk (stdPath (String.mk (stdPath p.data).1).data).1,
      (stdPath (String.mk (stdPath p.data).1).data).2.map
        (fun e => (String.mk e.1, String.mk e.2))) =
    (String.mk (stdPath p.data).1, [])
  rw [show (String.mk (stdPath p.data).1).data = (stdPath p.data).1 from rfl,
    stdPath_idem p.data]
  rfl

/-- Claim C4: a property of an object appears in the `required` list of
the inferred schema exactly when its example value is non-null; on
`{"a": 1, "b": null}` the result has integer/null property schemas and
`required = ["a"]`. -/
theorem claim4_required :
    (∀ (pairs : List (String × Json)) (k : String) (v : Json),
        (pairs.map Prod.fst).Nodup → (k, v) ∈ pairs →
        (k ∈ requiredListOf (generate_schema (.obj pairs)) ↔ v ≠ .null)) ∧
    generate_schema (.obj [("a", .int 1), ("b", .null)]) =
      .object [("a", .simple "integer"), ("b", .simple "null")] (some ["a"]) := by
  refine ⟨?_, rfl⟩
  intro pairs k v hnd hmem
  rw [requiredListOf_gs]
  exact mem_requiredKeys pairs k v hnd hmem

/-- Witness for claim C4 at the spec's example object. -/
theorem claim4_witness :
    "a" ∈ requiredListOf (generate_schema (.obj [("a", .int 1), ("b", .null)])) ↔
      (Json.int 1) ≠ .null :=
  claim4_required.1 [("a", .int 1), ("b", .null)] "a" (.int 1)
    (by decide) (List.mem_cons_self _ _)

/-- Claim C3: schema extraction of an unparseable body yields the empty
schema without failing, and the endpoint description of unparseable
request and response bodies omits the `with fields` and `Returns` clauses,
leaving only verb, resource and status annotation. -/
theorem claim3_silent :
    extract_schema_from_json none = Schema.empty ∧
    ∀ (path method : String) (rq : Request) (rs : Response),
      requestBodyParse rq = none → respTextParse rs = none →
      generate_endpoint_description path method rq rs =
        methodVerb method ++ " " ++ resourceName path ++ statusSuffix (rs.status.getD 200) := by
  refine ⟨rfl, ?_⟩
  intro path method rq rs h1 h2
  unfold generate_endpoint_description fieldDescOf respDescOf
  rw [h1, h2]
  show methodVerb method ++ " " ++ resourceName path ++ "" ++ "" ++
      statusSuffix (rs.status.getD 200) =
    methodVerb method ++ " " ++ resourceName path ++ statusSuffix (rs.status.getD 200)
  rw [str_append_empty, str_append_empty]

/-- Witness for claim C3 on concrete unparseable bodies. -/
theorem claim3_witness :
    generate_endpoint_description "/items" "get" rqClaim3 rsClaim3 =
      methodVerb "get" ++ " " ++ resourceName "/items" ++
        statusSuffix (rsClaim3.status.getD 200) :=
  claim3_silent.2 "/items" "get" rqClaim3 rsClaim3 rfl rfl

/-- Claim C9 is refuted: for a response body parsing to the EMPTY array
the describer still appends the `Returns a list of ...` clause (the source
tests only `isinstance(response_data, list)`, with no emptiness check), so
the description is not the clause-free text the claim predicts. -/
theorem claim9_refuted :
    generate_endpoint_description "/items" "get" rqClaim9 rsClaim9 =
      "Retrieve items Returns a list of itemss (Success: 200)" ∧
    generate_endpoint_description "/items" "get" rqClaim9 rsClaim9 ≠
      methodVerb "get" ++ " " ++ resourceName "/items" ++ statusSuffix 200 := by
  constructor
  · rfl
  · intro h
    exact absurd (by rw [← h]; rfl : (("Retrieve items Returns a list of itemss (Success: 200)" : String) =
      methodVerb "get" ++ " " ++ resourceName "/items" ++ statusSuffix 200)) (by decide)

/-- Claim C9 (amended): the `Returns a list of {resource}s` clause is
appended whenever the response body parses to a JSON array — empty or
not — and the `Returns data with fields` clause lists the keys of a
non-empty object body comma-joined in original order. -/
theorem claim9_amended :
    (∀ (path method : String) (rq : Request) (rs : Response) (l : List Json),
        respTextParse rs = some (.arr l) →
        generate_endpoint_description path method rq rs =
          methodVerb method ++ " " ++ resourceName path ++ fieldDescOf rq ++
            (" Returns a list of " ++ resourceName path ++ "s") ++
            statusSuffix (rs.status.getD 200)) ∧
    (∀ (path method : String) (rq : Request) (rs : Response)
        (pairs : List (String × Json)),
        respTextParse rs = some (.obj pairs) → pairs ≠ [] →
        generate_endpoint_description path method rq rs =
          methodVerb method ++ " " ++ resourceName path ++ fieldDescOf rq ++
            (" Returns data with fields: " ++ joinComma (pairs.map Prod.fst)) ++
            statusSuffix (rs.status.getD 200)) := by
  constructor
  · intro path method rq rs l h
    unfold generate_endpoint_description respDescOf
    rw [h]
  · intro path method rq rs pairs h hne
    unfold generate_endpoint_description respDescOf
    rw [h]
    cases pairs with
    | nil => exact absurd rfl hne
    | cons q qs => rfl

/-- Witness for claim C9 at the empty-array response. -/
theorem claim9_witness :
    generate_endpoint_description "/items" "get" rqClaim9 rsClaim9 =
      methodVerb "get" ++ " " ++ resourceName "/items" ++ fieldDescOf rqClaim9 ++
        (" Returns a list of " ++ resourceName "/items" ++ "s") ++
        statusSuffix (rsClaim9.status.getD 200) :=
  claim9_amended.1 "/items" "get" rqClaim9 rsClaim9 [] rfl

/-- Claim C1 is refuted: the example path does not normalize to
`/users/{id}/orders/{hash_3}` — the split on `'/'` of a path with a
leading slash puts its first real segment at index 1, so no parameterized
segment ever takes index 0 and the bare-kind name; the code produces
`/users/{id_2}/orders/{hash_4}`. -/
theorem claim1_refuted :
    standardize_path "/users/1000140/orders/3f29c4a1b2e3445e9aa1d2c3b4e5f6a7" ≠
      ("/users/{id}/orders/{hash_3}",
        [("1000140", "id"), ("3f29c4a1b2e3445e9aa1d2c3b4e5f6a7", "hash_3")]) := by
  decide

/-- Claim C1 (amended): the example normalizes to
`/users/{id_2}/orders/{hash_4}` with mapping
`{"1000140": "id_2", "3f29...6a7": "hash_4"}`; in general, for a path
beginning with `'/'`, every parameterized segment is named
`{kind}_{segmentIndex}` with its 0-based position in the `'/'`-split
(counting the leading empty element) — the bare kind name would only
arise at split index 0, which for such paths holds the empty segment. -/
theorem claim1_amended :
    standardize_path "/users/1000140/orders/3f29c4a1b2e3445e9aa1d2c3b4e5f6a7" =
      ("/users/{id_2}/orders/{hash_4}",
        [("1000140", "id_2"), ("3f29c4a1b2e3445e9aa1d2c3b4e5f6a7", "hash_4")]) ∧
    ∀ (p : String) (i : Nat) (s kind : List Char),
      (∃ r, p.data = '/' :: r) →
      nth (splitOnChar '/' p.data) i = some s →
      matchKind s = some kind →
      nth (splitOnChar '/' (standardize_path p).1.data) i =
        some ('{' :: ((kind ++ '_' :: natDigits i) ++ ['}'])) := by
  constructor
  · decide
  · rintro p i s kind ⟨r, hr⟩ hnth hmk
    have hne : s ≠ [] := matchKind_ne_nil s kind hmk
    have hi : i ≠ 0 := by
      intro h0
      subst h0
      rw [hr, splitOnChar_cons_sep, nth_cons_zero] at hnth
      exact hne (Option.some_inj.mp hnth).symm
    have hdata : (standardize_path p).1.data = (stdPath p.data).1 := rfl
    rw [hdata, stdPath_fst_split, segMapFrom_nth, hnth, Option.map_some']
    have ht : transformSeg (0 + i) s = '{' :: (paramName kind (0 + i) ++ ['}']) := by
      unfold transformSeg
      rw [if_neg hne, hmk]
    rw [ht, Nat.zero_add]
    unfold paramName
    rw [if_neg hi]

/-- Witness for claim C1 at the example path, segment index 2. -/
theorem claim1_witness :
    nth (splitOnChar '/'
        (standardize_path "/users/1000140/orders/3f29c4a1b2e3445e9aa1d2c3b4e5f6a7").1.data) 2 =
      some ('{' :: (("id".data ++ '_' :: natDigits 2) ++ ['}'])) :=
  claim1_amended.2 "/users/1000140/orders/3f29c4a1b2e3445e9aa1d2c3b4e5f6a7" 2
    "1000140".data "id".data
    ⟨"users/1000140/orders/3f29c4a1b2e3445e9aa1d2c3b4e5f6a7".data, by decide⟩
    (by decide) (by decide)

/-- Claim C8 is refuted: an entry whose scheme is neither `http` nor
`https` can still contribute a path, because the source only tests
`scheme.startswith('http')` — scheme `httpfoo` passes the test and its
path `/x` lands in the document. -/
theorem claim8_refuted :
    eClaim8.request.url.scheme ≠ "http" ∧ eClaim8.request.url.scheme ≠ "https" ∧
    dictKeys (convertPaths [eClaim8] none) = ["/x"] := by
  refine ⟨by decide, by decide, ?_⟩
  rfl

/-- Claim C8 (amended): the assembler skips — contributes nothing for —
every entry whose scheme does not start with `http` (rather than every
non-`http(s)` scheme), and every entry whose raw path does not start with
a configured path filter. -/
theorem claim8_amended :
    (∀ (pfx : Option String) (es1 es2 : List Entry) (e : Entry),
        strStartsWith e.request.url.scheme "http" = false →
        convertPaths (es1 ++ e :: es2) pfx = convertPaths (es1 ++ es2) pfx) ∧
    (∀ (pre : String) (es1 es2 : List Entry) (e : Entry),
        strStartsWith e.request.url.path pre = false →
        convertPaths (es1 ++ e :: es2) (some pre) = convertPaths (es1 ++ es2) (some pre)) := by
  constructor
  · intro pfx es1 es2 e h
    unfold convertPaths
    rw [List.foldl_append, List.foldl_append, List.foldl_cons,
      processEntry_skip_scheme _ pfx e h]
  · intro pre es1 es2 e h
    unfold convertPaths
    rw [List.foldl_append, List.foldl_append, List.foldl_cons,
      processEntry_skip_filter _ (some pre) e (by simp [skipByFilter, h])]

/-- Witness for claim C8: the `ftp`-scheme entry contributes nothing. -/
theorem claim8_witness :
    convertPaths ([] ++ eClaim8b :: []) none = convertPaths ([] ++ []) none :=
  claim8_amended.1 none [] [] eClaim8b rfl

/-- Claim C2: two passing entries whose paths normalize to the same
template and that share a method produce, in log order, exactly one
operation under that template+method key — the one derived from the later
entry alone (last write wins) — and in any assembled document the path
templates and, per template, the methods are key-unique, so each
(template, method) pair holds at most one operation. -/
theorem claim2_assembler :
    (∀ (e1 e2 : Entry) (t m : String),
        strStartsWith e1.request.url.scheme "http" = true →
        strStartsWith e2.request.url.scheme "http" = true →
        (standardize_path e1.request.url.path).1 = t →
        (standardize_path e2.request.url.path).1 = t →
        strLower (e1.request.method.getD "GET") = m →
        strLower (e2.request.method.getD "GET") = m →
        convertPaths [e1, e2] none = [(t, [(m, mkOperation e2)])]) ∧
    (∀ (entries : List Entry) (pfx : Option String),
        (dictKeys (convertPaths entries pfx)).Nodup ∧
        ∀ inner ∈ (convertPaths entries pfx).map Prod.snd, (dictKeys inner).Nodup) := by
  constructor
  · intro e1 e2 t m h1 h2 hp1 hp2 hm1 hm2
    have hf1 : skipByFilter none e1.request.url.path = false := rfl
    have hf2 : skipByFilter none e2.request.url.path = false := rfl
    have step1 : processEntry [] none e1 = [(t, [(m, mkOperation e1)])] := by
      rw [processEntry_pass [] none e1 h1 hf1, hp1, hm1]
      rfl
    have step2 : processEntry [(t, [(m, mkOperation e1)])] none e2 =
        [(t, [(m, mkOperation e2)])] := by
      rw [processEntry_pass _ none e2 h2 hf2, hp2, hm2]
      simp [dictLookup, dictInsert]
    calc convertPaths [e1, e2] none
        = processEntry (processEntry [] none e1) none e2 := rfl
      _ = [(t, [(m, mkOperation e2)])] := by rw [step1, step2]
  · exact convertPaths_nodup

/-- Witness for claim C2: `/users/1` then `/users/2` collapse to one GET
operation at `/users/{id_2}`, the second entry's. -/
theorem claim2_witness :
    convertPaths [eClaim2a, eClaim2b] none = [("/users/{id_2}", [("get", mkOperation eClaim2b)])] :=
  claim2_assembler.1 eClaim2a eClaim2b "/users/{id_2}" "get"
    rfl rfl (by decide) (by decide) rfl rfl

/-- Claim C10: when the same matching literal occupies two distinct
segments, each occurrence is replaced in the template by its own
position-indexed placeholder, while the literal-to-name mapping keeps
exactly one entry for the literal — named after its last occurrence — and
the earlier occurrence's placeholder name appears nowhere among the
mapping's values (hence yields no path parameter in the operation). -/
theorem claim10_mapping :
    ∀ (p : String) (s kind : List Char) (i j : Nat),
      i < j →
      nth (splitOnChar '/' p.data) i = some s →
      nth (splitOnChar '/' p.data) j = some s →
      (∀ k, j < k → nth (splitOnChar '/' p.data) k ≠ some s) →
      matchKind s = some kind →
      nth (splitOnChar '/' (stdPath p.data).1) i =
        some ('{' :: (paramName kind i ++ ['}'])) ∧
      nth (splitOnChar '/' (stdPath p.data).1) j =
        some ('{' :: (paramName kind j ++ ['}'])) ∧
      dictLookup (stdPath p.data).2 s = some (paramName kind j) ∧
      countKey (stdPath p.data).2 s = 1 ∧
      paramName kind i ∉ (stdPath p.data).2.map Prod.snd := by
  intro p s kind i j hij hi hj hlast hmk
  have hne : s ≠ [] := matchKind_ne_nil s kind hmk
  have hsnd : (stdPath p.data).2 = (stdLoop (splitOnChar '/' p.data) 0 []).2 := rfl
  have htr : ∀ n, nth (splitOnChar '/' p.data) n = some s →
      nth (splitOnChar '/' (stdPath p.data).1) n =
        some ('{' :: (paramName kind n ++ ['}'])) := by
    intro n hn
    rw [stdPath_fst_split, segMapFrom_nth, hn, Option.map_some']
    have ht : transformSeg (0 + n) s = '{' :: (paramName kind (0 + n) ++ ['}']) := by
      unfold transformSeg
      rw [if_neg hne, hmk]
    rw [ht, Nat.zero_add]
  have hnd : (dictKeys (stdLoop (splitOnChar '/' p.data) 0 []).2).Nodup :=
    stdLoop_snd_nodup _ 0 [] (by simp [dictKeys])
  have hlook : dictLookup (stdPath p.data).2 s = some (paramName kind j) := by
    rw [hsnd]
    have h := stdLoop_snd_last (splitOnChar '/' p.data) 0 [] j s kind hj hmk hlast
    rwa [Nat.zero_add] at h
  refine ⟨htr i hi, htr j hj, hlook, ?_, ?_⟩
  · rw [hsnd] at hlook ⊢
    exact countKey_eq_one _ s _ hnd hlook
  · intro hmem
    obtain ⟨ent, hent, hval⟩ := List.mem_map.mp hmem
    rw [hsnd] at hent
    rcases stdLoop_snd_mem _ 0 [] ent hent with hent0 | ⟨j', kind', hn', hmk', hv'⟩
    · exact absurd hent0 (List.not_mem_nil ent)
    · rw [Nat.zero_add] at hv'
      have heq : paramName kind' j' = paramName kind i := by rw [← hv', hval]
      obtain ⟨hk, hji⟩ := paramName_inj kind' kind j' i
        (matchKind_kinds ent.1 kind' hmk') (matchKind_kinds s kind hmk) heq
      rw [hji] at hn'
      have hseq : ent.1 = s := by
        rw [hn'] at hi
        exact Option.some_inj.mp hi
      have hmem2 : (s, ent.2) ∈ (stdLoop (splitOnChar '/' p.data) 0 []).2 := by
        rw [← hseq]
        exact hent
      have hlook2 : dictLookup (stdLoop (splitOnChar '/' p.data) 0 []).2 s = some ent.2 :=
        dictLookup_of_mem_nodup _ s ent.2 hnd hmem2
      rw [hsnd] at hlook
      rw [hlook2] at hlook
      have hvj : ent.2 = paramName kind j := Option.some_inj.mp hlook
      rw [hval] at hvj
      have := paramName_inj_same kind i j hvj
      omega

/-- Witness for claim C10 on `/5/things/5`: both occurrences of `5`
become placeholders, the mapping holds one entry named `id_3`, and `id_1`
is absent from the mapping's values. -/
theorem claim10_witness :
    nth (splitOnChar '/' (stdPath "/5/things/5".data).1) 1 =
      some ('{' :: (paramName "id".data 1 ++ ['}'])) ∧
    nth (splitOnChar '/' (stdPath "/5/things/5".data).1) 3 =
      some ('{' :: (paramName "id".data 3 ++ ['}'])) ∧
    dictLookup (stdPath "/5/things/5".data).2 "5".data = some (paramName "id".data 3) ∧
    countKey (stdPath "/5/things/5".data).2 "5".data = 1 ∧
    paramName "id".data 1 ∉ (stdPath "/5/things/5".data).2.map Prod.snd :=
  claim10_mapping "/5/things/5" "5".data "id".data 1 3 (by omega) (by decide) (by decide)
    (by
      intro k hk
      rw [show splitOnChar '/' "/5/things/5".data =
        [[], "5".data, "things".data, "5".data] from by decide]
      obtain ⟨k', rfl⟩ : ∃ k', k = k' + 4 := ⟨k - 4, by omega⟩
      simp)
    (by decide)
